import Mathlib

/-!
Verification of the ABI encode/decode, unit-conversion and JSON-RPC
transport core of the `n8n-nodes-celo` package.

The TypeScript sources embedded here are
`nodes/Celo/transport/celoClient.ts` (the transport/codec module) and
`nodes/Celo/utils/helpers.ts` (the helpers module).  JavaScript strings
become `String`/`List Char`, arbitrary-precision `BigInt` values become
`Nat`/`Int` (with `Int.tdiv`/`Int.tmod`, which truncate toward zero exactly
as BigInt division does), and functions that can throw return
`Option`/`Except`.
-/

namespace Celo

/-! ## Character and digit machinery

Models JavaScript's number/string conversions: `BigInt(string)`,
`BigInt.prototype.toString(radix)`, and template-literal printing. -/

/-- Numeric value of a digit character, as JavaScript's number parsing sees
it: `'0'`-`'9'` map to 0-9, `'A'`-`'F'` to 10-15, `'a'`-`'f'` (and any other
character, junk the claims never exercise) fall through to `code - 87`. -/
def digitVal (c : Char) : Nat :=
  if 48 ≤ c.toNat ∧ c.toNat ≤ 57 then c.toNat - 48
  else if 65 ≤ c.toNat ∧ c.toNat ≤ 70 then c.toNat - 55
  else c.toNat - 87

/-- The character printed for digit value `d` (lower case for 10-35),
as `BigInt.prototype.toString(radix)` prints digits. -/
def charOfDigit (d : Nat) : Char :=
  if d < 10 then Char.ofNat (48 + d) else Char.ofNat (87 + d)

/-- Value of a big-endian digit string in base `b`. -/
def valOfChars (b : Nat) (l : List Char) : Nat :=
  l.foldl (fun a c => b * a + digitVal c) 0

/-- Little-endian base-`b` digits with explicit fuel, so that kernel
evaluation works on concrete inputs (equal to `Nat.digits` once the fuel
covers the input, see `jsDigits_eq_digits`). -/
def digitsRevFuel (b : Nat) : Nat → Nat → List Nat
  | 0, _ => []
  | _ + 1, 0 => []
  | n + 1, fuel + 1 => (n + 1) % b :: digitsRevFuel b ((n + 1) / b) fuel

/-- Little-endian base-`b` digits of `n` (empty for zero). -/
def jsDigits (b n : Nat) : List Nat :=
  digitsRevFuel b n n

/-- Canonical base-`b` digit characters of `n`, most significant first;
empty for `n = 0` (callers special-case zero). -/
def natToBase (b n : Nat) : List Char :=
  ((jsDigits b n).map charOfDigit).reverse

/-- `n.toString()` on a BigInt: canonical decimal, `"0"` for zero. -/
def natToChars10 (n : Nat) : List Char :=
  if n = 0 then ['0'] else natToBase 10 n

/-- `n.toString(16)` on a non-negative BigInt: minimal lower-case hex. -/
def natHexChars (n : Nat) : List Char :=
  if n = 0 then ['0'] else natToBase 16 n

/-- `n.toString()` on a BigInt that may be negative. -/
def intToChars10 (n : Int) : List Char :=
  if n < 0 then '-' :: natToChars10 n.natAbs else natToChars10 n.toNat

/-- `n.toString(16)` on a BigInt that may be negative: JavaScript prints a
leading minus sign followed by the hex digits of the absolute value. -/
def intHexChars (n : Int) : List Char :=
  if n < 0 then '-' :: natHexChars n.natAbs else natHexChars n.toNat

/-- `s.padStart(n, c)` on strings that may already be long enough. -/
def padStartL (l : List Char) (n : Nat) (c : Char) : List Char :=
  List.replicate (n - l.length) c ++ l

/-- `s.replace(/0+$/, '')`: strip all trailing `'0'` characters. -/
def trimTrailingZeros (l : List Char) : List Char :=
  (l.reverse.dropWhile (fun c => c = '0')).reverse

/-- `s.replace('0x', '')`: remove the first occurrence of `"0x"`. -/
def replaceFirst0x : List Char → List Char
  | [] => []
  | '0' :: 'x' :: t => t
  | c :: t => c :: replaceFirst0x t

/-- Decimal digit recognizer (`'0'`-`'9'`), by character code. -/
def isDigitChar (c : Char) : Bool :=
  48 ≤ c.toNat && c.toNat ≤ 57

/-- `s.slice(a, b)` for non-negative in-range indices. -/
def sliceL (l : List Char) (a b : Nat) : List Char :=
  (l.drop a).take (b - a)

/-- Hex digit recognizer matching JavaScript `BigInt` hex literals. -/
def isHexDigitChar (c : Char) : Bool :=
  isDigitChar c || (97 ≤ c.toNat && c.toNat ≤ 102) || (65 ≤ c.toNat && c.toNat ≤ 70)

/-- `BigInt(string)` on a trimmed string: `""` is 0, an optional leading
minus sign followed by decimal digits, or a `0x` hex literal; anything else
throws a `SyntaxError` (modelled as `none`).  (JavaScript additionally
accepts surrounding whitespace and `0b`/`0o` literals; no caller in this
repository produces those forms.) -/
def jsBigIntOfString (s : List Char) : Option Int :=
  match s with
  | [] => some 0
  | '-' :: rest =>
    if rest ≠ [] ∧ rest.all isDigitChar then some (-(valOfChars 10 rest : Int)) else none
  | '0' :: 'x' :: rest =>
    if rest ≠ [] ∧ rest.all isHexDigitChar then some ((valOfChars 16 rest : Int)) else none
  | _ => if s.all isDigitChar then some ((valOfChars 10 s : Int)) else none

/-! ## JSON values and the JSON-RPC transport (`celoClient.ts`) -/

/-- A JSON value as delivered by the HTTP helper (`json: true`). -/
inductive JsonValue where
  | null
  | bool (b : Bool)
  | num (n : Int)
  | str (s : String)
  | arr (elems : List JsonValue)

/-- The `error` object of a JSON-RPC response envelope. -/
structure RpcError where
  code : Int
  message : String
deriving DecidableEq

/-- A JSON-RPC response: `none` models an absent field (`undefined`),
`some JsonValue.null` models an explicit JSON `null` result. -/
structure JsonRpcResponse where
  error : Option RpcError
  result : Option JsonValue

/-- The message of the `Error` thrown by `makeRpcCall` on an error
envelope: `` `RPC Error: ${message} (code: ${code})` ``. -/
def rpcErrorString (e : RpcError) : String :=
  "RPC Error: " ++ e.message ++ " (code: " ++ String.mk (intToChars10 e.code) ++ ")"

/-- Response processing of `makeRpcCall` (celoClient.ts lines 102-108):
a truthy `error` field throws, otherwise `rpcResponse.result` is returned
as-is — including `undefined` when the field is absent. -/
def makeRpcCallResponse (r : JsonRpcResponse) : Except String (Option JsonValue) :=
  match r.error with
  | some e => Except.error (rpcErrorString e)
  | none => Except.ok r.result

/-- Credentials as described by `CeloCredentials` in utils/types.ts;
optional fields are `Option` (`none` = property absent). -/
structure CeloCredentials where
  network : String
  rpcEndpoint : Option String
  privateKey : Option String
  celoscanApiKey : Option String

/-- One entry of the `CELO_NETWORKS` table in celo.constants.ts. -/
structure NetworkConfig where
  name : String
  chainId : Nat
  rpcUrl : String
  explorerUrl : String
  explorerApiUrl : String

/-- The `CELO_NETWORKS` constant table, as a lookup by key. -/
def CELO_NETWORKS (k : String) : Option NetworkConfig :=
  if k = "mainnet" then
    some ⟨"Celo Mainnet", 42220, "https://forno.celo.org",
      "https://celoscan.io", "https://api.celoscan.io/api"⟩
  else if k = "alfajores" then
    some ⟨"Alfajores Testnet", 44787, "https://alfajores-forno.celo-testnet.org",
      "https://alfajores.celoscan.io", "https://api-alfajores.celoscan.io/api"⟩
  else if k = "baklava" then
    some ⟨"Baklava Testnet", 62320, "https://baklava-forno.celo-testnet.org",
      "https://baklava-blockscout.celo-testnet.org",
      "https://baklava-blockscout.celo-testnet.org/api"⟩
  else none

/-- `getRpcUrl` (celoClient.ts lines 16-32).  JavaScript's
`!credentials.rpcEndpoint` is truthy both for an absent endpoint and for
the empty string, so both fail. -/
def getRpcUrl (credentials : CeloCredentials) : Except String String :=
  if credentials.network = "custom" then
    match credentials.rpcEndpoint with
    | none => Except.error "Custom network requires an RPC endpoint"
    | some ep =>
      if ep = "" then Except.error "Custom network requires an RPC endpoint"
      else Except.ok ep
  else
    match CELO_NETWORKS credentials.network with
    | none => Except.error ("Unknown network: " ++ credentials.network)
    | some cfg => Except.ok cfg.rpcUrl

/-- `makeRpcCall` (celoClient.ts lines 76-109), with the HTTP round trip
abstracted as a function from the resolved URL to the wire response.  The
URL is resolved by `getRpcUrl` before `context.helpers.httpRequest` runs,
so a resolution failure propagates without consulting `http` at all. -/
def makeRpcCall (credentials : CeloCredentials) (http : String → JsonRpcResponse) :
    Except String (Option JsonValue) :=
  match getRpcUrl credentials with
  | Except.error e => Except.error e
  | Except.ok rpcUrl => makeRpcCallResponse (http rpcUrl)

/-- Template-literal printing `` `${v}` `` of a JSON value (arrays print as
comma-joined elements).  Only used for the text of thrown errors. -/
def jsDisplayString : JsonValue → String
  | JsonValue.null => "null"
  | JsonValue.bool true => "true"
  | JsonValue.bool false => "false"
  | JsonValue.num n => String.mk (intToChars10 n)
  | JsonValue.str s => s
  | JsonValue.arr [] => ""
  | JsonValue.arr [x] => jsDisplayString x
  | JsonValue.arr (x :: y :: xs) =>
    jsDisplayString x ++ "," ++ jsDisplayString (JsonValue.arr (y :: xs))

/-- An explorer (Celoscan) API response body. -/
structure ExplorerResponse where
  status : String
  message : String
  result : JsonValue

/-- Response processing of `makeExplorerCall` (celoClient.ts lines
139-143): `status === '0'` is an error unless the message is exactly
`'No transactions found'`; otherwise `response.result` is returned. -/
def makeExplorerCallResponse (r : ExplorerResponse) : Except String JsonValue :=
  if r.status = "0" ∧ r.message ≠ "No transactions found" then
    Except.error ("Explorer API Error: " ++
      (if r.message = "" then jsDisplayString r.result else r.message))
  else
    Except.ok r.result

/-! ## ABI parameter encoding and result decoding (`celoClient.ts`) -/

/-- A JavaScript value handed to the encoder (`unknown[]` in the source):
the branches apply `String(value)`, `BigInt(value)` or truthiness to it.
`undef` is `undefined` (what indexing past the end of `values` yields). -/
inductive JsValue where
  | undef
  | bool (b : Bool)
  | num (n : Int)
  | str (s : String)
deriving DecidableEq

/-- `String(value)`. -/
def jsToString : JsValue → String
  | JsValue.undef => "undefined"
  | JsValue.bool true => "true"
  | JsValue.bool false => "false"
  | JsValue.num n => String.mk (intToChars10 n)
  | JsValue.str s => s

/-- JavaScript truthiness of an encoder value. -/
def jsTruthy : JsValue → Bool
  | JsValue.undef => false
  | JsValue.bool b => b
  | JsValue.num n => decide (n ≠ 0)
  | JsValue.str s => decide (s ≠ "")

/-- `BigInt(value)`: throws (`none`) on `undefined` and unparsable
strings; `true`/`false` convert to 1/0; numbers are modelled as integers
(the repository never passes fractional numbers, which would throw). -/
def jsBigInt : JsValue → Option Int
  | JsValue.undef => none
  | JsValue.bool b => some (if b then 1 else 0)
  | JsValue.num n => some n
  | JsValue.str s => jsBigIntOfString s.data

/-- `padLeft` (celoClient.ts lines 239-241): `hex.padStart(length, '0')`. -/
def padLeft (hex : String) (length : Nat) : String :=
  String.mk (padStartL hex.data length '0')

/-- One step per parameter of `encodeParameters` (celoClient.ts lines
182-207).  `totalLen` is `types.length` of the whole call (the dynamic-type
branch encodes the offset `types.length * 32` and drops the payload; the
`hexValue` it computes is dead code).  Unknown types append nothing.
`values[i]` is `undefined` once `i` runs past the end of `values`. -/
def encodeParametersAux (totalLen : Nat) : List String → List JsValue → Option (List Char)
  | [], _ => some []
  | t :: ts, vs =>
    let value := vs.headD JsValue.undef
    let word : Option (List Char) :=
      if t = "address" then
        some (padStartL (replaceFirst0x ((jsToString value).data.map Char.toLower)) 64 '0')
      else if t = "uint256" ∨ t = "uint" then
        match jsBigInt value with
        | none => none
        | some n => some (padStartL (intHexChars n) 64 '0')
      else if t = "bool" then
        some (padStartL [if jsTruthy value then '1' else '0'] 64 '0')
      else if t = "bytes32" then
        some (padStartL (replaceFirst0x (jsToString value).data) 64 '0')
      else if t = "string" ∨ t = "bytes" then
        some (padStartL (natHexChars (totalLen * 32)) 64 '0')
      else some []
    match word with
    | none => none
    | some w =>
      match encodeParametersAux totalLen ts vs.tail with
      | none => none
      | some e => some (w ++ e)

/-- `encodeParameters` (celoClient.ts lines 182-207): concatenation of the
per-parameter words; `none` models a thrown conversion error. -/
def encodeParameters (types : List String) (values : List JsValue) : Option String :=
  (encodeParametersAux types.length types values).map String.mk

/-- A decoded ABI value as pushed by `decodeResult`: the address, uint and
bytes32 branches push strings, the bool branch pushes a boolean. -/
inductive DecodedValue where
  | str (s : String)
  | bool (b : Bool)
deriving DecidableEq

/-- The offset-walking loop of `decodeResult` (celoClient.ts lines
212-234).  The uint branch models `BigInt('0x' + slice).toString()`; the
claims only exercise the address and bool branches (on an empty or
non-hex slice the JavaScript `BigInt` call would throw instead). -/
def decodeResultAux (data : List Char) : List String → Nat → List DecodedValue
  | [], _ => []
  | t :: ts, offset =>
    if t = "address" then
      DecodedValue.str (String.mk ('0' :: 'x' :: sliceL data (offset + 24) (offset + 64))) ::
        decodeResultAux data ts (offset + 64)
    else if t = "uint256" ∨ t = "uint" then
      DecodedValue.str (String.mk (natToChars10 (valOfChars 16 (sliceL data offset (offset + 64))))) ::
        decodeResultAux data ts (offset + 64)
    else if t = "bool" then
      DecodedValue.bool (sliceL data (offset + 63) (offset + 64) = ['1']) ::
        decodeResultAux data ts (offset + 64)
    else if t = "bytes32" then
      DecodedValue.str (String.mk ('0' :: 'x' :: sliceL data offset (offset + 64))) ::
        decodeResultAux data ts (offset + 64)
    else
      decodeResultAux data ts offset

/-- `decodeResult` (celoClient.ts lines 212-234). -/
def decodeResult (hexResult : String) (types : List String) : List DecodedValue :=
  decodeResultAux (replaceFirst0x hexResult.data) types 0

/-! ## Unit conversion (`celoClient.ts`) -/

/-- Round a natural number to the nearest IEEE-754 binary64 value
(53 significand bits, round half to even): numbers below `2^53` are
exact; larger ones keep their top 53 bits and round the rest. -/
def roundToDouble (n : Nat) : Nat :=
  if n < 2 ^ 53 then n
  else
    let k := (jsDigits 2 n).length - 53
    let q := n / 2 ^ k
    let r := n % 2 ^ k
    let half := 2 ^ (k - 1)
    (if half < r ∨ (r = half ∧ q % 2 = 1) then q + 1 else q) * 2 ^ k

/-- `BigInt(10 ** d)`: the exponent is computed as a *floating-point*
number first, so the divisor is the correctly rounded binary64 value of
`10^d` (what JavaScript engines produce for `10 ** d`) converted back to
an integer.  It equals `10^d` exactly only for `d ≤ 22` (where
`5^d < 2^53`); from `d = 23` on it differs
(`BigInt(10 ** 23) = 99999999999999991611392`), and for `d ≥ 309` the
float overflows to `Infinity` and `BigInt` throws a `RangeError`
(modelled as `none`). -/
def jsPow10 (d : Nat) : Option Nat :=
  let v := roundToDouble (10 ^ d)
  if v < 2 ^ 1024 then some v else none

/-- The divide, pad and trim pipeline of `formatUnits` on the
already-parsed BigInt value and the already-computed divisor
(celoClient.ts lines 250-265); the zero test mirrors line 250, which the
source runs before computing the divisor. -/
def formatUnitsCore (value : Nat) (decimals : Nat) (divisor : Nat) : List Char :=
  if value = 0 then ['0']
  else
    let integerPart := value / divisor
    let fractionalPart := value % divisor
    if fractionalPart = 0 then natToChars10 integerPart
    else
      let fractionalStr := padStartL (natToChars10 fractionalPart) decimals '0'
      let trimmedFractional := trimTrailingZeros fractionalStr
      natToChars10 integerPart ++ '.' :: trimmedFractional

/-- `formatUnits` (celoClient.ts lines 246-266) on a string input.  The
zero check (line 250) runs before the divisor `BigInt(10 ** decimals)`
(line 254) is computed, so a zero value returns `"0"` even where that
computation would throw; the divisor is the float-rounded `jsPow10`.
The claims quantify over decimal digit strings; on other strings the
JavaScript `BigInt(valueStr)` throws (`none`).  (`BigInt` also accepts
signs, whitespace and hex literals, which no claim exercises.) -/
def formatUnits (value : String) (decimals : Nat) : Option String :=
  if value.data.all isDigitChar then
    if valOfChars 10 value.data = 0 then some "0"
    else
      match jsPow10 decimals with
      | none => none
      | some divisor =>
        some (String.mk (formatUnitsCore (valOfChars 10 value.data) decimals divisor))
  else none

/-- `value.split('.')` destructured as `[integerPart, fractionalPart = '']`:
the part before the first `'.'` and the part between the first and second
`'.'` (empty when there is no `'.'`). -/
def splitIntFrac (l : List Char) : List Char × List Char :=
  (l.takeWhile (fun c => c ≠ '.'),
   ((l.dropWhile (fun c => c ≠ '.')).drop 1).takeWhile (fun c => c ≠ '.'))

/-- `parseUnits` (celoClient.ts lines 271-276):
`fractionalPart.padEnd(decimals, '0').slice(0, decimals)` right-pads with
zeros and truncates to exactly `decimals` digits, then the concatenation
is parsed by `BigInt(combined)` (`none` when that throws) and printed in
canonical decimal. -/
def parseUnits (value : String) (decimals : Nat) : Option String :=
  let p := splitIntFrac value.data
  let paddedFractional := (p.2 ++ List.replicate (decimals - p.2.length) '0').take decimals
  let combined := p.1 ++ paddedFractional
  if combined.all isDigitChar then
    some (String.mk (natToChars10 (valOfChars 10 combined)))
  else none

/-! ## Helpers module (`utils/helpers.ts`) -/

/-- The `UnitConversion` result record of `convertUnits`. -/
structure UnitConversion where
  wei : String
  gwei : String
  celo : String
deriving DecidableEq

/-- `formatBigIntWithDecimals` (helpers.ts lines 113-126).  BigInt `/` and
`%` truncate toward zero, hence `Int.tdiv`/`Int.tmod`.  The source divisor
is the float-computed `BigInt(10 ** decimals)` (see `jsPow10`); its only
caller, `convertUnits`, passes the constant 18, where the float is exactly
`10^18`, so the divisor is written as the exact power here. -/
def formatBigIntWithDecimals (value : Int) (decimals : Nat) : String :=
  let divisor : Int := 10 ^ decimals
  let integerPart := Int.tdiv value divisor
  let fractionalPart := Int.tmod value divisor
  if fractionalPart = 0 then String.mk (intToChars10 integerPart)
  else
    let fractionalStr := padStartL (intToChars10 fractionalPart) decimals '0'
    let trimmedFractional := trimTrailingZeros fractionalStr
    String.mk (intToChars10 integerPart ++ '.' :: trimmedFractional)

/-- `convertUnits` (helpers.ts lines 84-108):
`BigInt(value.split('.')[0])` drops everything from the first decimal
point on; an unknown unit throws (`none`), as does an unparsable integer
part. -/
def convertUnits (value : String) (fromUnit : String) : Option UnitConversion :=
  match jsBigIntOfString (value.data.takeWhile (fun c => c ≠ '.')) with
  | none => none
  | some valueBigInt =>
    let weiValue : Option Int :=
      if fromUnit = "wei" then some valueBigInt
      else if fromUnit = "gwei" then some (valueBigInt * 10 ^ 9)
      else if fromUnit = "celo" then some (valueBigInt * 10 ^ 18)
      else none
    match weiValue with
    | none => none
    | some w =>
      some ⟨String.mk (intToChars10 w),
            String.mk (intToChars10 (Int.tdiv w (10 ^ 9))),
            formatBigIntWithDecimals w 18⟩

/-- `formatTokenAmount` (helpers.ts lines 143-158).  JavaScript's
`padded.slice(0, -decimals)` is the empty string when `decimals = 0`
(since `-0 === 0`), and `padded.slice(-decimals)` is then the whole
string; the `|| '0'` fallback replaces an empty integer part. -/
def formatTokenAmount (value : String) (decimals : Nat) : String :=
  if value = "0" ∨ value = "" then "0"
  else
    let padded := padStartL value.data (decimals + 1) '0'
    let ip := if decimals = 0 then [] else padded.take (padded.length - decimals)
    let integerPart := if ip = [] then ['0'] else ip
    let fractionalPart := if decimals = 0 then padded else padded.drop (padded.length - decimals)
    let trimmedFractional := trimTrailingZeros fractionalPart
    if trimmedFractional = [] then String.mk integerPart
    else String.mk (integerPart ++ '.' :: trimmedFractional)

/-- `decodeAddress` (helpers.ts lines 317-321): last 40 characters of the
stripped hex, lower-cased, `0x`-prefixed. -/
def decodeAddress (hex : String) : String :=
  let cleanHex := replaceFirst0x hex.data
  String.mk ('0' :: 'x' :: (cleanHex.drop (cleanHex.length - 40)).map Char.toLower)

/-- `decodeBool` (helpers.ts lines 326-329): `cleanHex.slice(-1) === '1'`,
i.e. the last character is `'1'`. -/
def decodeBool (hex : String) : Bool :=
  let cleanHex := replaceFirst0x hex.data
  cleanHex.getLast? == some '1'

/-! ## General lemmas about the digit machinery -/

theorem charToNat_injective {c d : Char} (h : c.toNat = d.toNat) : c = d := by
  cases c with
  | mk cv hc =>
    cases d with
    | mk dv hd =>
      congr 1
      cases cv; cases dv
      simp only [Char.toNat, UInt32.toNat] at h
      congr 1
      exact BitVec.toNat_injective h

theorem digitVal_charOfDigit : ∀ d : Nat, d < 36 → digitVal (charOfDigit d) = d := by decide

theorem isDigit_charOfDigit : ∀ d : Nat, d < 10 → (charOfDigit d).isDigit = true := by decide

theorem digitsRevFuel_eq_digits {b : Nat} (hb : 1 < b) :
    ∀ fuel n, n ≤ fuel → digitsRevFuel b n fuel = Nat.digits b n := by
  intro fuel
  induction fuel with
  | zero =>
    intro n hn
    have : n = 0 := by omega
    subst this
    simp [digitsRevFuel]
  | succ fuel ih =>
    intro n hn
    match n with
    | 0 => simp [digitsRevFuel]
    | m + 1 =>
      have hdiv : (m + 1) / b < m + 1 := Nat.div_lt_self (Nat.succ_pos m) hb
      have hle : (m + 1) / b ≤ fuel := by omega
      show (m + 1) % b :: digitsRevFuel b ((m + 1) / b) fuel = _
      rw [ih _ hle, ← Nat.digits_def' hb (Nat.succ_pos m)]

theorem jsDigits_eq_digits {b : Nat} (hb : 1 < b) (n : Nat) :
    jsDigits b n = Nat.digits b n :=
  digitsRevFuel_eq_digits hb n n (le_refl n)

theorem natToBase_eq_digits {b : Nat} (hb : 1 < b) (n : Nat) :
    natToBase b n = ((Nat.digits b n).map charOfDigit).reverse := by
  unfold natToBase
  rw [jsDigits_eq_digits hb]

theorem foldl_digit_acc (b : Nat) (l : List Char) (a : Nat) :
    l.foldl (fun a c => b * a + digitVal c) a = a * b ^ l.length + valOfChars b l := by
  induction l generalizing a with
  | nil => simp [valOfChars]
  | cons c t ih =>
    simp only [List.foldl_cons, List.length_cons, valOfChars]
    rw [ih (b * a + digitVal c), ih (b * 0 + digitVal c)]
    ring

theorem valOfChars_append (b : Nat) (l1 l2 : List Char) :
    valOfChars b (l1 ++ l2) = valOfChars b l1 * b ^ l2.length + valOfChars b l2 := by
  unfold valOfChars
  rw [List.foldl_append, foldl_digit_acc]
  rfl

theorem valOfChars_singleton (b : Nat) (c : Char) : valOfChars b [c] = digitVal c := by
  simp [valOfChars]

theorem valOfChars_eq_ofDigits (b : Nat) (L : List Nat) (h : ∀ d ∈ L, d < 36) :
    valOfChars b (L.map charOfDigit).reverse = Nat.ofDigits b L := by
  induction L with
  | nil => simp [valOfChars]
  | cons d t ih =>
    simp only [List.map_cons, List.reverse_cons]
    rw [valOfChars_append, ih (fun x hx => h x (List.mem_cons_of_mem _ hx)),
      valOfChars_singleton, digitVal_charOfDigit d (h d (List.mem_cons_self _ _)),
      Nat.ofDigits_cons]
    simp
    ring

theorem valOfChars_natToBase {b : Nat} (hb : 1 < b) (hb36 : b ≤ 36) (n : Nat) :
    valOfChars b (natToBase b n) = n := by
  rw [natToBase_eq_digits hb]
  rw [valOfChars_eq_ofDigits b _ (fun d hd => lt_of_lt_of_le (Nat.digits_lt_base hb hd) hb36)]
  exact Nat.ofDigits_digits b n

theorem valOfChars_natToChars10 (n : Nat) : valOfChars 10 (natToChars10 n) = n := by
  unfold natToChars10
  split
  · rename_i h
    subst h
    decide
  · exact valOfChars_natToBase (by norm_num) (by norm_num) n

theorem valOfChars_natHexChars (n : Nat) : valOfChars 16 (natHexChars n) = n := by
  unfold natHexChars
  split
  · rename_i h
    subst h
    decide
  · exact valOfChars_natToBase (by norm_num) (by norm_num) n

theorem valOfChars_replicate_zero (b k : Nat) : valOfChars b (List.replicate k '0') = 0 := by
  induction k with
  | zero => simp [valOfChars]
  | succ k ih =>
    have h0 : digitVal '0' = 0 := by decide
    simp only [List.replicate_succ, valOfChars, List.foldl_cons] at ih ⊢
    simpa [h0] using ih

theorem valOfChars_replicate_zero_append (b k : Nat) (l : List Char) :
    valOfChars b (List.replicate k '0' ++ l) = valOfChars b l := by
  rw [valOfChars_append, valOfChars_replicate_zero]
  simp

theorem valOfChars_padStartL (b n : Nat) (l : List Char) :
    valOfChars b (padStartL l n '0') = valOfChars b l :=
  valOfChars_replicate_zero_append b _ l

theorem isDigitChar_charOfDigit : ∀ d : Nat, d < 10 → isDigitChar (charOfDigit d) = true := by
  decide

theorem natToBase10_digits (n : Nat) : ∀ c ∈ natToBase 10 n, isDigitChar c = true := by
  intro c hc
  rw [natToBase_eq_digits (by norm_num)] at hc
  simp only [List.mem_reverse, List.mem_map] at hc
  obtain ⟨d, hd, rfl⟩ := hc
  exact isDigitChar_charOfDigit d (Nat.digits_lt_base (by norm_num) hd)

theorem natToChars10_digits (n : Nat) : ∀ c ∈ natToChars10 n, isDigitChar c = true := by
  intro c hc
  unfold natToChars10 at hc
  split at hc
  · simp only [List.mem_singleton] at hc
    subst hc
    decide
  · exact natToBase10_digits n c hc

theorem natToChars10_all_digits (n : Nat) : (natToChars10 n).all isDigitChar = true := by
  rw [List.all_eq_true]
  exact natToChars10_digits n

theorem natToChars10_ne_nil (n : Nat) : natToChars10 n ≠ [] := by
  unfold natToChars10
  split
  · simp
  · rename_i h
    rw [natToBase_eq_digits (by norm_num)]
    simp [Nat.digits_ne_nil_iff_ne_zero.mpr h]

theorem natToBase_length {b : Nat} (hb : 1 < b) (n : Nat) :
    (natToBase b n).length = (Nat.digits b n).length := by
  rw [natToBase_eq_digits hb]
  simp

theorem natToBase_length_le {b n k : Nat} (hb : 1 < b) (h : n < b ^ k) :
    (natToBase b n).length ≤ k := by
  rw [natToBase_length hb]
  rcases Nat.eq_zero_or_pos n with rfl | hn
  · simp
  · rw [Nat.digits_len b n hb (Nat.pos_iff_ne_zero.mp hn)]
    have := (Nat.lt_pow_iff_log_lt hb (Nat.pos_iff_ne_zero.mp hn)).mp h
    omega

theorem natToChars10_length_le {n d : Nat} (hd : 1 ≤ d) (h : n < 10 ^ d) :
    (natToChars10 n).length ≤ d := by
  unfold natToChars10
  split
  · simpa using hd
  · exact natToBase_length_le (by norm_num) h

theorem natHexChars_length_le {n k : Nat} (hk : 1 ≤ k) (h : n < 16 ^ k) :
    (natHexChars n).length ≤ k := by
  unfold natHexChars
  split
  · simpa using hk
  · exact natToBase_length_le (by norm_num) h

theorem natHexChars_length_ge {n k : Nat} (h : 16 ^ k ≤ n) :
    k + 1 ≤ (natHexChars n).length := by
  have hn : n ≠ 0 := by
    have h1 : 0 < 16 ^ k := by positivity
    omega
  unfold natHexChars
  rw [if_neg hn, natToBase_length (by norm_num), Nat.digits_len 16 n (by norm_num) hn]
  have := (Nat.pow_le_iff_le_log (by norm_num) hn).mp h
  omega

theorem padStartL_length (l : List Char) (n : Nat) (c : Char) :
    (padStartL l n c).length = max n l.length := by
  simp only [padStartL, List.length_append, List.length_replicate]
  omega

/-- Decimal-notation splitting: for a positive high part, the canonical
numeral of `a * 10 ^ d + r` is the numeral of `a` followed by the numeral
of `r` padded to `d` digits. -/
theorem natToChars10_split {a r d : Nat} (ha : 0 < a) (hd : 1 ≤ d) (hr : r < 10 ^ d) :
    natToChars10 (a * 10 ^ d + r) = natToChars10 a ++ padStartL (natToChars10 r) d '0' := by
  have hlen : (Nat.digits 10 r).length ≤ d := by
    rcases Nat.eq_zero_or_pos r with rfl | hrpos
    · simp
    · rw [Nat.digits_len 10 r (by norm_num) (Nat.pos_iff_ne_zero.mp hrpos)]
      have := (Nat.lt_pow_iff_log_lt (b := 10) (by norm_num)
        (Nat.pos_iff_ne_zero.mp hrpos)).mp hr
      omega
  have hkey := Nat.digits_append_zeroes_append_digits
    (b := 10) (k := d - (Nat.digits 10 r).length) (m := a) (n := r) (by norm_num) ha
  have harg : r + 10 ^ ((Nat.digits 10 r).length + (d - (Nat.digits 10 r).length)) * a
      = a * 10 ^ d + r := by
    have : (Nat.digits 10 r).length + (d - (Nat.digits 10 r).length) = d := by omega
    rw [this]
    ring
  rw [harg] at hkey
  have hpos : a * 10 ^ d + r ≠ 0 := by positivity
  rw [natToChars10, if_neg hpos, natToBase_eq_digits (by norm_num), ← hkey]
  simp only [List.map_append, List.reverse_append, List.map_replicate]
  have hcharzero : charOfDigit 0 = '0' := by decide
  rw [hcharzero, List.reverse_replicate]
  rcases Nat.eq_zero_or_pos r with rfl | hrpos
  · have h1 : natToChars10 a = (List.map charOfDigit (Nat.digits 10 a)).reverse := by
      rw [natToChars10, if_neg (Nat.pos_iff_ne_zero.mp ha)]
      exact natToBase_eq_digits (by norm_num) a
    have h2 : padStartL (natToChars10 0) d '0' = List.replicate d '0' := by
      show List.replicate (d - 1) '0' ++ ['0'] = List.replicate d '0'
      rw [← List.replicate_succ' (d - 1) '0']
      congr 1
      omega
    rw [h1, h2]
    simp
  · have h1 : natToChars10 a = (List.map charOfDigit (Nat.digits 10 a)).reverse := by
      rw [natToChars10, if_neg (Nat.pos_iff_ne_zero.mp ha)]
      exact natToBase_eq_digits (by norm_num) a
    have h2 : padStartL (natToChars10 r) d '0'
        = List.replicate (d - (Nat.digits 10 r).length) '0'
          ++ (List.map charOfDigit (Nat.digits 10 r)).reverse := by
      rw [natToChars10, if_neg (Nat.pos_iff_ne_zero.mp hrpos)]
      show List.replicate (d - (natToBase 10 r).length) '0' ++ natToBase 10 r = _
      rw [natToBase_length (by norm_num), natToBase_eq_digits (by norm_num)]
    rw [h1, h2]

theorem trimTrailingZeros_append (l : List Char) :
    l = trimTrailingZeros l
      ++ List.replicate (l.length - (trimTrailingZeros l).length) '0' := by
  conv_lhs => rw [← List.reverse_reverse l,
    ← List.takeWhile_append_dropWhile (p := fun c => c = '0') (l := l.reverse)]
  have htake : l.reverse.takeWhile (fun c => c = '0')
      = List.replicate (l.length - (trimTrailingZeros l).length) '0' := by
    have hall : ∀ c ∈ l.reverse.takeWhile (fun c => c = '0'), c = '0' := by
      intro c hc
      have := List.takeWhile_subset (p := fun c => c = '0') (l := l.reverse)
      simpa using (List.mem_takeWhile_imp hc)
    rw [List.eq_replicate_of_mem hall]
    congr 1
    have hsplit := congrArg List.length
      (List.takeWhile_append_dropWhile (p := fun c => c = '0') (l := l.reverse))
    simp only [List.length_append, List.length_reverse] at hsplit
    have : (trimTrailingZeros l).length = (l.reverse.dropWhile (fun c => c = '0')).length := by
      simp [trimTrailingZeros]
    omega
  rw [List.reverse_append, htake, List.reverse_replicate]
  rfl

theorem trimTrailingZeros_length_le (l : List Char) :
    (trimTrailingZeros l).length ≤ l.length := by
  simp only [trimTrailingZeros, List.length_reverse]
  calc (l.reverse.dropWhile (fun c => c = '0')).length
      ≤ l.reverse.length := (List.dropWhile_sublist _).length_le
    _ = l.length := List.length_reverse l

theorem trimTrailingZeros_eq_nil_iff (l : List Char) :
    trimTrailingZeros l = [] ↔ ∀ c ∈ l, c = '0' := by
  unfold trimTrailingZeros
  rw [List.reverse_eq_nil_iff, List.dropWhile_eq_nil_iff]
  constructor
  · intro h c hc
    have := h c (List.mem_reverse.mpr hc)
    simpa using this
  · intro h c hc
    simpa using h c (List.mem_reverse.mp hc)

theorem valOfChars_of_all_zero {b : Nat} {l : List Char} (h : ∀ c ∈ l, c = '0') :
    valOfChars b l = 0 := by
  rw [List.eq_replicate_of_mem h]
  exact valOfChars_replicate_zero b l.length

/-- Digit strings of length `k` denote values below `b ^ k`, provided every
digit has value below `b`. -/
theorem valOfChars_lt {b : Nat} (_hb : 0 < b) {l : List Char}
    (h : ∀ c ∈ l, digitVal c < b) : valOfChars b l < b ^ l.length := by
  induction l with
  | nil =>
    simp [valOfChars]
  | cons c t ih =>
    have hc : digitVal c < b := h c (List.mem_cons_self _ _)
    have ht := ih (fun x hx => h x (List.mem_cons_of_mem _ hx))
    have hval : valOfChars b (c :: t) = digitVal c * b ^ t.length + valOfChars b t := by
      have := valOfChars_append b [c] t
      simpa [valOfChars_singleton] using this
    rw [hval, List.length_cons, pow_succ]
    have hstep : (digitVal c + 1) * b ^ t.length ≤ b ^ t.length * b := by
      rw [Nat.mul_comm]
      exact Nat.mul_le_mul_left _ hc
    have hexp : (digitVal c + 1) * b ^ t.length
        = digitVal c * b ^ t.length + b ^ t.length := by ring
    omega

theorem digitVal_lt_ten {c : Char} (h : isDigitChar c = true) : digitVal c < 10 := by
  simp only [isDigitChar, Bool.and_eq_true, decide_eq_true_eq] at h
  unfold digitVal
  split_ifs
  all_goals omega

theorem digitVal_lt_sixteen {c : Char} (h : isHexDigitChar c = true) : digitVal c < 16 := by
  simp only [isHexDigitChar, isDigitChar, Bool.or_eq_true, Bool.and_eq_true,
    decide_eq_true_eq] at h
  unfold digitVal
  split_ifs
  all_goals omega

theorem isDigitChar_ne_dot {c : Char} (h : isDigitChar c = true) : c ≠ '.' := by
  intro hc
  subst hc
  simp [isDigitChar] at h

theorem takeWhile_ne_dot_of_forall {l : List Char} (h : ∀ c ∈ l, c ≠ '.') :
    l.takeWhile (fun c => c ≠ '.') = l := by
  induction l with
  | nil => rfl
  | cons c t ih =>
    have hc : c ≠ '.' := h c (List.mem_cons_self _ _)
    have ht := ih (fun x hx => h x (List.mem_cons_of_mem _ hx))
    simp_all [List.takeWhile_cons]

theorem takeWhile_ne_dot_append {i : List Char} (hi : ∀ c ∈ i, c ≠ '.') (rest : List Char) :
    (i ++ '.' :: rest).takeWhile (fun c => c ≠ '.') = i := by
  induction i with
  | nil => simp [List.takeWhile_cons]
  | cons c t ih =>
    have hc : c ≠ '.' := hi c (List.mem_cons_self _ _)
    have ht := ih (fun x hx => hi x (List.mem_cons_of_mem _ hx))
    simp_all [List.cons_append, List.takeWhile_cons]

theorem dropWhile_ne_dot_append {i : List Char} (hi : ∀ c ∈ i, c ≠ '.') (rest : List Char) :
    (i ++ '.' :: rest).dropWhile (fun c => c ≠ '.') = '.' :: rest := by
  induction i with
  | nil => simp [List.dropWhile_cons]
  | cons c t ih =>
    have hc : c ≠ '.' := hi c (List.mem_cons_self _ _)
    have ht := ih (fun x hx => hi x (List.mem_cons_of_mem _ hx))
    simp_all [List.cons_append, List.dropWhile_cons]

theorem dropWhile_ne_dot_of_forall {l : List Char} (h : ∀ c ∈ l, c ≠ '.') :
    l.dropWhile (fun c => c ≠ '.') = [] := by
  induction l with
  | nil => rfl
  | cons c t ih =>
    have hc : c ≠ '.' := h c (List.mem_cons_self _ _)
    have ht := ih (fun x hx => h x (List.mem_cons_of_mem _ hx))
    simp_all [List.dropWhile_cons]

theorem splitIntFrac_append {i f : List Char} (hi : ∀ c ∈ i, isDigitChar c = true)
    (hf : ∀ c ∈ f, isDigitChar c = true) :
    splitIntFrac (i ++ '.' :: f) = (i, f) := by
  unfold splitIntFrac
  have hi' : ∀ c ∈ i, c ≠ '.' := fun c hc => isDigitChar_ne_dot (hi c hc)
  have hf' : ∀ c ∈ f, c ≠ '.' := fun c hc => isDigitChar_ne_dot (hf c hc)
  rw [takeWhile_ne_dot_append hi', dropWhile_ne_dot_append hi']
  simp only [List.drop_succ_cons, List.drop_zero]
  rw [takeWhile_ne_dot_of_forall hf']

theorem splitIntFrac_nodot {i : List Char} (hi : ∀ c ∈ i, isDigitChar c = true) :
    splitIntFrac i = (i, []) := by
  unfold splitIntFrac
  have hi' : ∀ c ∈ i, c ≠ '.' := fun c hc => isDigitChar_ne_dot (hi c hc)
  rw [takeWhile_ne_dot_of_forall hi', dropWhile_ne_dot_of_forall hi']
  rfl

/-- `parseUnits` unfolded through a known `split('.')` outcome. -/
theorem parseUnits_eq {l i f : List Char} {d : Nat} (hsplit : splitIntFrac l = (i, f))
    (hdig : (i ++ (f ++ List.replicate (d - f.length) '0').take d).all isDigitChar = true) :
    parseUnits (String.mk l) d
      = some (String.mk (natToChars10
          (valOfChars 10 (i ++ (f ++ List.replicate (d - f.length) '0').take d)))) := by
  unfold parseUnits
  show (let p := splitIntFrac l; _) = _
  rw [hsplit]
  simp only [hdig, if_pos]

/-- Value of the pad-then-truncate pipeline: padding the fractional part to
`d` digits and concatenating computes `⌊(integer.fraction) · 10^d⌋`, i.e.
multiplication by `10^d` with excess precision truncated toward zero. -/
theorem valOfChars_pad_truncate (i f : List Char) (d : Nat)
    (hf : ∀ c ∈ f, digitVal c < 10) :
    valOfChars 10 (i ++ (f ++ List.replicate (d - f.length) '0').take d)
      = valOfChars 10 (i ++ f) * 10 ^ d / 10 ^ f.length := by
  rcases le_or_lt f.length d with hle | hlt
  · have hpad : (f ++ List.replicate (d - f.length) '0').take d
        = f ++ List.replicate (d - f.length) '0' := by
      apply List.take_of_length_le
      simp only [List.length_append, List.length_replicate]
      omega
    rw [hpad, ← List.append_assoc, valOfChars_append, valOfChars_replicate_zero,
      List.length_replicate]
    have hsplitpow : 10 ^ d = 10 ^ f.length * 10 ^ (d - f.length) := by
      rw [← pow_add]
      congr 1
      omega
    rw [hsplitpow]
    have h10 : 0 < 10 ^ f.length := by positivity
    rw [show valOfChars 10 (i ++ f) * (10 ^ f.length * 10 ^ (d - f.length))
        = 10 ^ f.length * (valOfChars 10 (i ++ f) * 10 ^ (d - f.length)) from by ring]
    rw [Nat.mul_div_cancel_left _ h10]
    omega
  · have hzero : d - f.length = 0 := by omega
    have hpad : (f ++ List.replicate (d - f.length) '0').take d = f.take d := by
      rw [hzero]
      simp only [List.replicate_zero, List.append_nil]
    rw [hpad]
    have hsplit : i ++ f = (i ++ f.take d) ++ f.drop d := by
      rw [List.append_assoc, List.take_append_drop]
    conv_rhs => rw [hsplit, valOfChars_append]
    have hlen : (f.drop d).length = f.length - d := by simp
    have hdlt : valOfChars 10 (f.drop d) < 10 ^ (f.length - d) := by
      have := valOfChars_lt (b := 10) (by norm_num) (l := f.drop d)
        (fun c hc => hf c (List.drop_subset d f hc))
      rwa [hlen] at this
    rw [hlen]
    have hpow : 10 ^ f.length = 10 ^ (f.length - d) * 10 ^ d := by
      rw [← pow_add]
      congr 1
      omega
    rw [hpow, Nat.mul_div_mul_right _ _ (by positivity : (0:Nat) < 10 ^ d)]
    rw [show valOfChars 10 (i ++ f.take d) * 10 ^ (f.length - d) + valOfChars 10 (f.drop d)
        = valOfChars 10 (f.drop d) + 10 ^ (f.length - d) * valOfChars 10 (i ++ f.take d)
        from by ring]
    rw [Nat.add_mul_div_left _ _ (by positivity : (0:Nat) < 10 ^ (f.length - d))]
    rw [Nat.div_eq_of_lt hdlt]
    omega

/-! ## Claim C1: JSON-RPC response processing -/

/-- C1 (counterexample): a JSON-RPC response carrying neither a `result`
nor an `error` does not make `makeRpcCall` fail: the processing succeeds
and returns the absent (`undefined`) value, so the claim that such a
response "fails explicitly rather than returning an ambiguous value" is
false. -/
theorem makeRpcCall_missing_both_succeeds :
    makeRpcCallResponse ⟨none, none⟩ = Except.ok none := rfl

/-- C1 (amended): `makeRpcCall` response processing: a response with an
`error` object fails with the error's `code` and `message` embedded
verbatim in `rpcErrorString`; a response without an `error` object
succeeds and returns the `result` field as-is — a present result (even
JSON `null`) is returned, and a response missing both fields succeeds
with the absent value (`undefined`) instead of failing. -/
theorem makeRpcCall_response_processing (r : JsonRpcResponse) :
    (∀ e : RpcError, r.error = some e →
      makeRpcCallResponse r = Except.error (rpcErrorString e)) ∧
    (r.error = none → makeRpcCallResponse r = Except.ok r.result) := by
  constructor
  · intro e he
    simp [makeRpcCallResponse, he]
  · intro he
    simp [makeRpcCallResponse, he]

/-- C1 (witness): the amended theorem applied to the spec's example error
envelope `{"code": -32602, "message": "Invalid params"}` and to a
response with a JSON `null` result. -/
theorem makeRpcCall_response_processing_witness :
    makeRpcCallResponse ⟨some ⟨-32602, "Invalid params"⟩, none⟩
        = Except.error "RPC Error: Invalid params (code: -32602)" ∧
    makeRpcCallResponse ⟨none, some JsonValue.null⟩ = Except.ok (some JsonValue.null) := by
  constructor
  · rw [(makeRpcCall_response_processing ⟨some ⟨-32602, "Invalid params"⟩, none⟩).1
      ⟨-32602, "Invalid params"⟩ rfl]
    rfl
  · exact (makeRpcCall_response_processing ⟨none, some JsonValue.null⟩).2 rfl

/-! ## Claim C2: explorer response processing -/

/-- C2: `makeExplorerCall` response processing: a `status` of `"0"` fails
the call unless the `message` is exactly the sentinel
`"No transactions found"`, in which case the (empty) `result` is returned
as a success; any other `status` succeeds with the `result` field. -/
theorem makeExplorerCall_status_sentinel (r : ExplorerResponse) :
    (r.status = "0" → r.message ≠ "No transactions found" →
      ∃ msg, makeExplorerCallResponse r = Except.error msg) ∧
    (r.status = "0" → r.message = "No transactions found" →
      makeExplorerCallResponse r = Except.ok r.result) ∧
    (r.status ≠ "0" → makeExplorerCallResponse r = Except.ok r.result) := by
  refine ⟨?_, ?_, ?_⟩
  · intro hs hm
    unfold makeExplorerCallResponse
    rw [if_pos ⟨hs, hm⟩]
    exact ⟨_, rfl⟩
  · intro hs hm
    simp [makeExplorerCallResponse, hs, hm]
  · intro hs
    simp [makeExplorerCallResponse, hs]

/-- C2 (witness): the spec's example
`{"status":"0","message":"No transactions found","result":[]}` is a
successful empty result, and a failing explorer response does fail. -/
theorem makeExplorerCall_status_sentinel_witness :
    makeExplorerCallResponse ⟨"0", "No transactions found", JsonValue.arr []⟩
        = Except.ok (JsonValue.arr []) ∧
    ∃ msg, makeExplorerCallResponse ⟨"0", "NOTOK", JsonValue.arr []⟩
        = Except.error msg := by
  constructor
  · exact (makeExplorerCall_status_sentinel
      ⟨"0", "No transactions found", JsonValue.arr []⟩).2.1 rfl rfl
  · exact (makeExplorerCall_status_sentinel ⟨"0", "NOTOK", JsonValue.arr []⟩).1 rfl
      (by decide)

/-! ## Claim C8: custom network without an endpoint -/

/-- C8: with network `"custom"` and no RPC endpoint in the credentials,
`getRpcUrl` raises the configuration error and `makeRpcCall` fails with
it for every possible HTTP behaviour — i.e. before any HTTP request is
attempted, the outcome does not depend on the `http` function at all. -/
theorem custom_network_requires_endpoint (c : CeloCredentials)
    (http : String → JsonRpcResponse) (hn : c.network = "custom")
    (he : c.rpcEndpoint = none) :
    getRpcUrl c = Except.error "Custom network requires an RPC endpoint" ∧
    makeRpcCall c http = Except.error "Custom network requires an RPC endpoint" := by
  have hurl : getRpcUrl c = Except.error "Custom network requires an RPC endpoint" := by
    unfold getRpcUrl
    rw [hn, if_pos rfl, he]
  exact ⟨hurl, by unfold makeRpcCall; rw [hurl]⟩

/-- C8 (witness): the theorem applied to concrete custom credentials with
no endpoint, and an HTTP function that would answer every request. -/
theorem custom_network_requires_endpoint_witness :
    makeRpcCall ⟨"custom", none, none, none⟩
        (fun _ => ⟨none, some (JsonValue.str "0x1")⟩)
      = Except.error "Custom network requires an RPC endpoint" :=
  (custom_network_requires_endpoint ⟨"custom", none, none, none⟩
    (fun _ => ⟨none, some (JsonValue.str "0x1")⟩) rfl rfl).2

/-! ## Claim C10: convertUnits discards the fractional part -/

/-- C10: `convertUnits` silently truncates at the first decimal point:
for every input string and unit, the result coincides with `convertUnits`
applied to just the integer part (`value.split('.')[0]`), no error being
raised; in particular `convertUnits("1.9", "celo")` equals
`convertUnits("1", "celo")` and succeeds. -/
theorem convertUnits_truncates_fraction :
    (∀ (value fromUnit : String),
      convertUnits value fromUnit
        = convertUnits (String.mk (value.data.takeWhile (fun c => c ≠ '.'))) fromUnit) ∧
    convertUnits "1.9" "celo" = convertUnits "1" "celo" ∧
    (convertUnits "1.9" "celo").isSome = true := by
  refine ⟨?_, by decide, by decide⟩
  intro value fromUnit
  unfold convertUnits
  have hidem : (String.mk (value.data.takeWhile (fun c => c ≠ '.'))).data.takeWhile
      (fun c => c ≠ '.') = value.data.takeWhile (fun c => c ≠ '.') := by
    show (value.data.takeWhile (fun c => c ≠ '.')).takeWhile (fun c => c ≠ '.') = _
    apply takeWhile_ne_dot_of_forall
    intro c hc
    have := List.mem_takeWhile_imp hc
    simpa using this
  rw [hidem]

/-! ## Claim C7: parseUnits pads, truncates and concatenates -/

theorem mem_trimTrailingZeros {l : List Char} {c : Char} (hc : c ∈ trimTrailingZeros l) :
    c ∈ l := by
  unfold trimTrailingZeros at hc
  rw [List.mem_reverse] at hc
  exact List.mem_reverse.mp (List.dropWhile_subset _ hc)

theorem replicate_zero_digits (k : Nat) :
    ∀ c ∈ List.replicate k '0', isDigitChar c = true := by
  intro c hc
  rw [List.eq_of_mem_replicate hc]
  decide

theorem pad_take_digits {f : List Char} (hf : ∀ c ∈ f, isDigitChar c = true) (d : Nat) :
    ∀ c ∈ (f ++ List.replicate (d - f.length) '0').take d, isDigitChar c = true := by
  intro c hc
  rcases List.mem_append.mp (List.take_subset d _ hc) with h | h
  · exact hf c h
  · exact replicate_zero_digits _ c h

theorem parseUnits_digits_dot (i f : List Char) (d : Nat)
    (hi : i.all isDigitChar = true) (hf : f.all isDigitChar = true) :
    parseUnits (String.mk (i ++ '.' :: f)) d
      = some (String.mk (natToChars10
          (valOfChars 10 (i ++ f) * 10 ^ d / 10 ^ f.length))) := by
  have hi' := List.all_eq_true.mp hi
  have hf' := List.all_eq_true.mp hf
  have hdig : (i ++ (f ++ List.replicate (d - f.length) '0').take d).all isDigitChar
      = true := by
    rw [List.all_eq_true]
    intro c hc
    rcases List.mem_append.mp hc with h | h
    · exact hi' c h
    · exact pad_take_digits hf' d c h
  rw [parseUnits_eq (splitIntFrac_append hi' hf') hdig,
    valOfChars_pad_truncate i f d (fun c hc => digitVal_lt_ten (hf' c hc))]

theorem parseUnits_digits_nodot (i : List Char) (d : Nat)
    (hi : i.all isDigitChar = true) :
    parseUnits (String.mk i) d
      = some (String.mk (natToChars10 (valOfChars 10 i * 10 ^ d))) := by
  have hi' := List.all_eq_true.mp hi
  have hdig : (i ++ (([] ++ List.replicate (d - List.length ([] : List Char)) '0').take d)).all
      isDigitChar = true := by
    rw [List.all_eq_true]
    intro c hc
    rcases List.mem_append.mp hc with h | h
    · exact hi' c h
    · exact pad_take_digits (f := []) (by simp) d c h
  rw [parseUnits_eq (splitIntFrac_nodot hi') hdig,
    valOfChars_pad_truncate i [] d (by simp)]
  simp

/-- C7: `parseUnits` right-pads the fractional part with zeros and
truncates it to exactly `decimals` digits — so the parsed value is
` ⌊(digits of the amount) · 10^decimals / 10^(fraction length)⌋`,
truncation toward zero, never rounding — and the integer and padded
fractional digits are parsed as one arbitrary-precision integer.  For an
amount without a decimal point the value is just the integer times
`10^decimals`.  Boundary: `parseUnits("0.1", 18) = "100000000000000000"`. -/
theorem parseUnits_pad_truncate :
    parseUnits "0.1" 18 = some "100000000000000000" ∧
    (∀ (i f : List Char) (d : Nat), i.all isDigitChar = true → f.all isDigitChar = true →
      parseUnits (String.mk (i ++ '.' :: f)) d
        = some (String.mk (natToChars10
            (valOfChars 10 (i ++ f) * 10 ^ d / 10 ^ f.length)))) ∧
    (∀ (i : List Char) (d : Nat), i.all isDigitChar = true →
      parseUnits (String.mk i) d
        = some (String.mk (natToChars10 (valOfChars 10 i * 10 ^ d)))) :=
  ⟨by decide, parseUnits_digits_dot, parseUnits_digits_nodot⟩

/-- C7 (witness): the padding conjunct at `"1.23"` with one decimal (the
excess digit `3` is dropped) and the no-point conjunct at `"7"`. -/
theorem parseUnits_pad_truncate_witness :
    parseUnits (String.mk (['1'] ++ '.' :: ['2', '3'])) 1
        = some (String.mk (natToChars10
            (valOfChars 10 (['1'] ++ ['2', '3']) * 10 ^ 1 / 10 ^ (['2', '3'] : List Char).length))) ∧
    parseUnits (String.mk ['7']) 2
        = some (String.mk (natToChars10 (valOfChars 10 ['7'] * 10 ^ 2))) :=
  ⟨parseUnits_pad_truncate.2.1 ['1'] ['2', '3'] 1 (by decide) (by decide),
   parseUnits_pad_truncate.2.2 ['7'] 2 (by decide)⟩

/-! ## Claim C6: formatUnits splits by exact division -/

theorem formatUnitsCore_zero (d D : Nat) : formatUnitsCore 0 d D = ['0'] := by
  simp [formatUnitsCore]

theorem formatUnitsCore_of_mod_eq_zero {x d D : Nat} (hx : x ≠ 0) (hf : x % D = 0) :
    formatUnitsCore x d D = natToChars10 (x / D) := by
  unfold formatUnitsCore
  rw [if_neg hx]
  simp only [hf, if_pos]

theorem formatUnitsCore_of_mod_ne_zero {x d D : Nat} (hx : x ≠ 0) (hf : x % D ≠ 0) :
    formatUnitsCore x d D = natToChars10 (x / D)
      ++ '.' :: trimTrailingZeros (padStartL (natToChars10 (x % D)) d '0') := by
  unfold formatUnitsCore
  rw [if_neg hx]
  simp only [hf, if_neg]
  simp

set_option maxRecDepth 16384 in
/-- The float-computed divisor `BigInt(10 ** d)` is exactly `10^d` for
every `d ≤ 22` (there `5^d < 2^53`, so the binary64 value is exact). -/
theorem jsPow10_le22 : ∀ d : Nat, d ≤ 22 → jsPow10 d = some (10 ^ d) := by decide

theorem formatUnits_digits {v : List Char} (hv : v.all isDigitChar = true) {d : Nat}
    (hd : d ≤ 22) :
    formatUnits (String.mk v) d
      = some (String.mk (formatUnitsCore (valOfChars 10 v) d (10 ^ d))) := by
  unfold formatUnits
  show (if v.all isDigitChar = true then _ else _) = _
  rw [if_pos hv]
  by_cases h0 : valOfChars 10 v = 0
  · rw [if_pos h0, h0, formatUnitsCore_zero]
  · rw [if_neg h0, jsPow10_le22 d hd]

theorem formatUnits_natToChars10 (x : Nat) {d : Nat} (hd : d ≤ 22) :
    formatUnits (String.mk (natToChars10 x)) d
      = some (String.mk (formatUnitsCore x d (10 ^ d))) := by
  have h := formatUnits_digits (natToChars10_all_digits x) hd
  rwa [valOfChars_natToChars10] at h

theorem parseUnits_formatUnitsCore (x d : Nat) :
    parseUnits (String.mk (formatUnitsCore x d (10 ^ d))) d
      = some (String.mk (natToChars10 x)) := by
  by_cases hx : x = 0
  · subst hx
    rw [formatUnitsCore_zero]
    have h := parseUnits_digits_nodot ['0'] d (by decide)
    rw [h]
    congr 2
    have : valOfChars 10 ['0'] = 0 := by decide
    rw [this, Nat.zero_mul]
  · by_cases hf : x % 10 ^ d = 0
    · rw [formatUnitsCore_of_mod_eq_zero hx hf]
      rw [parseUnits_digits_nodot (natToChars10 (x / 10 ^ d)) d
        (natToChars10_all_digits _)]
      rw [valOfChars_natToChars10]
      rw [Nat.div_mul_cancel (Nat.dvd_of_mod_eq_zero hf)]
    · have hd1 : 1 ≤ d := by
        rcases Nat.eq_zero_or_pos d with rfl | h
        · exact absurd (Nat.mod_one x) hf
        · exact h
      have hfd : x % 10 ^ d < 10 ^ d := Nat.mod_lt x (by positivity)
      set f := x % 10 ^ d with hfdef
      set P := padStartL (natToChars10 f) d '0' with hPdef
      set T := trimTrailingZeros P with hTdef
      have hlenf : (natToChars10 f).length ≤ d := natToChars10_length_le hd1 hfd
      have hPlen : P.length = d := by
        rw [hPdef, padStartL_length]
        omega
      have hPT : P = T ++ List.replicate (d - T.length) '0' := by
        have h := trimTrailingZeros_append P
        rwa [hPlen, ← hTdef] at h
      have hTdig : ∀ c ∈ T, isDigitChar c = true := by
        intro c hc
        have hcP := mem_trimTrailingZeros (hTdef ▸ hc)
        rcases List.mem_append.mp hcP with h | h
        · exact replicate_zero_digits _ c h
        · exact natToChars10_digits f c h
      rw [formatUnitsCore_of_mod_ne_zero hx hf, ← hPdef, ← hTdef]
      have h := parseUnits_digits_dot (natToChars10 (x / 10 ^ d)) T d
        (natToChars10_all_digits _) (List.all_eq_true.mpr hTdig)
      rw [h]
      congr 2
      -- value of the reconstruction: (val I ∥ T) · 10^d / 10^(len T) = x
      have hvalP : valOfChars 10 P = f := by
        rw [hPdef, valOfChars_padStartL, valOfChars_natToChars10]
      have hTd : T.length ≤ d := hPlen ▸ trimTrailingZeros_length_le P
      rw [valOfChars_append, valOfChars_natToChars10]
      -- (q · 10^|T| + val T) · 10^d / 10^|T| = q · 10^d + val T · 10^(d - |T|)
      have hvalT : valOfChars 10 T * 10 ^ (d - T.length) = f := by
        have := congrArg (valOfChars 10) hPT
        rw [hvalP, valOfChars_append, valOfChars_replicate_zero, List.length_replicate]
          at this
        simpa using this.symm
      have hexp : 10 ^ d = 10 ^ T.length * 10 ^ (d - T.length) := by
        rw [← pow_add]
        congr 1
        omega
      have hq : (x / 10 ^ d * 10 ^ T.length + valOfChars 10 T) * 10 ^ d / 10 ^ T.length
          = x := by
        conv_lhs => rw [show (x / 10 ^ d * 10 ^ T.length + valOfChars 10 T) * 10 ^ d
          = 10 ^ T.length * (x / 10 ^ d * 10 ^ d + valOfChars 10 T * 10 ^ (d - T.length))
          from by rw [hexp]; ring]
        rw [Nat.mul_div_cancel_left _ (by positivity : (0:Nat) < 10 ^ T.length)]
        rw [hvalT]
        calc x / 10 ^ d * 10 ^ d + f = 10 ^ d * (x / 10 ^ d) + x % 10 ^ d := by
              rw [hfdef]
              ring
          _ = x := Nat.div_add_mod x (10 ^ d)
      rw [hq]

set_option maxRecDepth 16384 in
/-- C6 (counterexample): the divisor is `BigInt(10 ** decimals)`, a
*float* power, exact only up to 22 decimals.  At 23 decimals the float is
`99999999999999991611392 ≠ 10^23`, so formatting `10^23` base units with
23 decimals yields `"1.00000000000000008388608"` instead of the `"1"`
that exact division against `10^23` would give (third conjunct): the
claimed exact splitting for *every* decimals count is false. -/
theorem formatUnits_float_divisor_precision_loss :
    formatUnits "100000000000000000000000" 23 = some "1.00000000000000008388608" ∧
    formatUnits "100000000000000000000000" 23 ≠ some "1" ∧
    String.mk (formatUnitsCore (valOfChars 10
        ("100000000000000000000000").data) 23 (10 ^ 23)) = "1" ∧
    jsPow10 23 = some 99999999999999991611392 := by
  refine ⟨by decide, by decide, by decide, by decide⟩

set_option maxRecDepth 16384 in
/-- C6 (amended): for every decimals count `d ≤ 22` — where the source's
float-computed divisor `BigInt(10 ** d)` is exactly `10^d` —
`formatUnits` splits the base amount into integer and fractional
components by exact division and modulus against `10^d`, with the claimed
boundary values; zero input returns the literal `"0"` for *every* `d`
(the zero test precedes the divisor computation); the exact-divisor
pipeline parses back to exactly the original amount (`parseUnits` being
its inverse there), so no precision is lost in that range; and a decimal
separator appears exactly when the amount is nonzero with a nonzero
remainder modulo `10^d` (a zero fractional remainder omits the separator
entirely).  From `d = 23` on the float divisor deviates from `10^d` and
the exact-splitting property fails (see the counterexample). -/
theorem formatUnits_split_exact_le22 :
    formatUnits "0" 18 = some "0" ∧
    formatUnits "1000000000000000000" 18 = some "1" ∧
    formatUnits "1500000000000000000" 18 = some "1.5" ∧
    (∀ d : Nat, formatUnits "0" d = some "0") ∧
    (∀ x d : Nat, d ≤ 22 → formatUnits (String.mk (natToChars10 x)) d
        = some (String.mk (formatUnitsCore x d (10 ^ d)))) ∧
    (∀ x d : Nat, parseUnits (String.mk (formatUnitsCore x d (10 ^ d))) d
        = some (String.mk (natToChars10 x))) ∧
    (∀ x d : Nat, ('.' ∈ formatUnitsCore x d (10 ^ d)) ↔ (x ≠ 0 ∧ x % 10 ^ d ≠ 0)) := by
  refine ⟨by decide, by decide, by decide, fun d => rfl,
    fun x d hd => formatUnits_natToChars10 x hd,
    parseUnits_formatUnitsCore, ?_⟩
  intro x d
  by_cases hx : x = 0
  · subst hx
    rw [formatUnitsCore_zero]
    simp
  · by_cases hf : x % 10 ^ d = 0
    · rw [formatUnitsCore_of_mod_eq_zero hx hf]
      simp only [hf, ne_eq, not_true_eq_false, and_false, iff_false]
      intro hdot
      have := natToChars10_digits (x / 10 ^ d) '.' hdot
      simp [isDigitChar] at this
    · rw [formatUnitsCore_of_mod_ne_zero hx hf]
      simp only [hx, hf, ne_eq, not_false_eq_true, and_self, iff_true]
      exact List.mem_append.mpr (Or.inr (List.mem_cons_self _ _))

/-- C6 (witness): the amended decimals-tied conjunct applied at value 3
with 2 decimals. -/
theorem formatUnits_split_exact_le22_witness :
    formatUnits (String.mk (natToChars10 3)) 2
      = some (String.mk (formatUnitsCore 3 2 (10 ^ 2))) :=
  formatUnits_split_exact_le22.2.2.2.2.1 3 2 (by norm_num)

/-! ## Claim C9: formatUnits versus formatTokenAmount -/

theorem trimTrailingZeros_ne_nil_of_val_ne_zero {b : Nat} {l : List Char}
    (h : valOfChars b l ≠ 0) : trimTrailingZeros l ≠ [] := by
  intro hnil
  exact h (valOfChars_of_all_zero ((trimTrailingZeros_eq_nil_iff l).mp hnil))

/-- The helpers-module formatter agrees with `formatUnitsCore` on canonical
numerals (no leading zeros). -/
theorem formatTokenAmount_canonical (x : Nat) {d : Nat} (hd : 1 ≤ d) :
    formatTokenAmount (String.mk (natToChars10 x)) d
      = String.mk (formatUnitsCore x d (10 ^ d)) := by
  by_cases hx : x = 0
  · subst hx
    rw [formatUnitsCore_zero]
    show formatTokenAmount "0" d = "0"
    simp [formatTokenAmount]
  · have hne : ¬(String.mk (natToChars10 x) = "0" ∨ String.mk (natToChars10 x) = "") := by
      rintro (h | h)
      · have hdata : natToChars10 x = ['0'] := congrArg String.data h
        have hv := valOfChars_natToChars10 x
        rw [hdata, valOfChars_singleton] at hv
        have : digitVal '0' = 0 := by decide
        omega
      · exact natToChars10_ne_nil x (congrArg String.data h)
    have hd0 : d ≠ 0 := by omega
    have hpos : 0 < (10:Nat) ^ d := by positivity
    have hfd : x % 10 ^ d < 10 ^ d := Nat.mod_lt x hpos
    unfold formatTokenAmount
    rw [if_neg hne]
    simp only [if_neg hd0]
    rcases Nat.lt_or_ge x (10 ^ d) with hq | hq
    · -- the whole amount is fractional: integer part `0`
      have hn : (natToChars10 x).length ≤ d := natToChars10_length_le hd hq
      have hpadded : padStartL (natToChars10 x) (d + 1) '0'
          = '0' :: padStartL (natToChars10 x) d '0' := by
        unfold padStartL
        rw [show (d + 1) - (natToChars10 x).length
          = (d - (natToChars10 x).length) + 1 from by omega, List.replicate_succ]
        rfl
      have hlenpad : (padStartL (natToChars10 x) d '0').length = d := by
        rw [padStartL_length]
        omega
      rw [hpadded]
      have hlen1 : ('0' :: padStartL (natToChars10 x) d '0').length - d = 1 := by
        simp only [List.length_cons, hlenpad]
        omega
      rw [hlen1]
      have hfrac : valOfChars 10 (padStartL (natToChars10 x) d '0') = x := by
        rw [valOfChars_padStartL, valOfChars_natToChars10]
      have htrim : trimTrailingZeros (List.drop 1 ('0' :: padStartL (natToChars10 x) d '0'))
          ≠ [] := by
        show trimTrailingZeros (padStartL (natToChars10 x) d '0') ≠ []
        exact trimTrailingZeros_ne_nil_of_val_ne_zero (by rw [hfrac]; exact hx)
      rw [if_neg htrim]
      have hmod : x % 10 ^ d = x := Nat.mod_eq_of_lt hq
      have hdiv : x / 10 ^ d = 0 := Nat.div_eq_of_lt hq
      rw [formatUnitsCore_of_mod_ne_zero hx (by rw [hmod]; exact hx), hmod, hdiv]
      have htake : List.take 1 ('0' :: padStartL (natToChars10 x) d '0') = ['0'] := rfl
      rw [htake, if_neg (by simp : ¬(['0'] : List Char) = [])]
      rfl
    · -- integer part at least 1
      have hq1 : 1 ≤ x / 10 ^ d := (Nat.one_le_div_iff hpos).mpr hq
      have hsplitN : natToChars10 x
          = natToChars10 (x / 10 ^ d)
            ++ padStartL (natToChars10 (x % 10 ^ d)) d '0' := by
        conv_lhs => rw [show x = (x / 10 ^ d) * 10 ^ d + x % 10 ^ d from by
          rw [Nat.mul_comm]
          exact (Nat.div_add_mod x (10 ^ d)).symm]
        exact natToChars10_split hq1 hd hfd
      have hlenP : (padStartL (natToChars10 (x % 10 ^ d)) d '0').length = d := by
        rw [padStartL_length]
        have := natToChars10_length_le hd hfd
        omega
      have hlenN : (natToChars10 x).length = (natToChars10 (x / 10 ^ d)).length + d := by
        rw [hsplitN, List.length_append, hlenP]
      have hpadded : padStartL (natToChars10 x) (d + 1) '0' = natToChars10 x := by
        unfold padStartL
        have hI : natToChars10 (x / 10 ^ d) ≠ [] := natToChars10_ne_nil _
        have : (d + 1) - (natToChars10 x).length = 0 := by
          have : 1 ≤ (natToChars10 (x / 10 ^ d)).length := List.length_pos.mpr hI
          omega
        rw [this]
        rfl
      rw [hpadded]
      have hsub : (natToChars10 x).length - d = (natToChars10 (x / 10 ^ d)).length := by
        omega
      rw [hsub]
      conv_lhs => rw [hsplitN]
      rw [List.take_left, List.drop_left]
      have hI : ¬natToChars10 (x / 10 ^ d) = [] := natToChars10_ne_nil _
      rw [if_neg hI]
      have hvalP : valOfChars 10 (padStartL (natToChars10 (x % 10 ^ d)) d '0')
          = x % 10 ^ d := by
        rw [valOfChars_padStartL, valOfChars_natToChars10]
      by_cases hf : x % 10 ^ d = 0
      · have hallz : ∀ c ∈ padStartL (natToChars10 (x % 10 ^ d)) d '0', c = '0' := by
          intro c hc
          rcases List.mem_append.mp hc with h | h
          · exact List.eq_of_mem_replicate h
          · rw [hf] at h
            rw [show natToChars10 0 = ['0'] from rfl] at h
            simpa using h
        rw [if_pos ((trimTrailingZeros_eq_nil_iff _).mpr hallz)]
        rw [formatUnitsCore_of_mod_eq_zero hx hf]
      · rw [if_neg (trimTrailingZeros_ne_nil_of_val_ne_zero (by rw [hvalP]; exact hf))]
        rw [formatUnitsCore_of_mod_ne_zero hx hf]

/-- C9 (counterexample): the two formatters disagree on a digit string of
twenty zeros — `formatUnits` parses it to zero and prints `"0"`, while
`formatTokenAmount` keeps the two surplus leading zeros as its integer
part and prints `"00"`.  (The claim includes leading-zero strings
explicitly, so the stated equivalence is false.) -/
theorem formatUnits_ne_formatTokenAmount_leading_zeros :
    formatUnits "00000000000000000000" 18
        ≠ some (formatTokenAmount "00000000000000000000" 18) ∧
    formatUnits "00000000000000000000" 18 = some "0" ∧
    formatTokenAmount "00000000000000000000" 18 = "00" := by
  refine ⟨by decide, by decide, by decide⟩

theorem valOfChars_cons (b : Nat) (c : Char) (t : List Char) :
    valOfChars b (c :: t) = digitVal c * b ^ t.length + valOfChars b t := by
  have h := valOfChars_append b [c] t
  simpa [valOfChars_singleton] using h

theorem digit_char_of_val_zero {c : Char} (hc : isDigitChar c = true)
    (h : digitVal c = 0) : c = '0' := by
  simp only [isDigitChar, Bool.and_eq_true, decide_eq_true_eq] at hc
  unfold digitVal at h
  have h48 : c.toNat = 48 := by
    split_ifs at h
    all_goals omega
  exact charToNat_injective (show c.toNat = Char.toNat '0' from h48)

theorem all_zero_of_val_eq_zero {v : List Char} (hv : ∀ c ∈ v, isDigitChar c = true)
    (h0 : valOfChars 10 v = 0) : ∀ c ∈ v, c = '0' := by
  induction v with
  | nil => simp
  | cons c t ih =>
    rw [valOfChars_cons] at h0
    have hboth := Nat.add_eq_zero.mp h0
    have hc0 : digitVal c = 0 := by
      rcases Nat.mul_eq_zero.mp hboth.1 with h | h
      · exact h
      · exact absurd h (by positivity)
    intro c' hc'
    rcases List.mem_cons.mp hc' with rfl | hmem
    · exact digit_char_of_val_zero (hv c' (List.mem_cons_self _ _)) hc0
    · exact ih (fun a ha => hv a (List.mem_cons_of_mem _ ha)) hboth.2 c' hmem

/-- Digit strings of equal length with equal values are equal: a decimal
representation of fixed width is unique. -/
theorem digit_strings_eq_of_val_eq :
    ∀ {p q : List Char}, (∀ c ∈ p, isDigitChar c = true) →
      (∀ c ∈ q, isDigitChar c = true) → p.length = q.length →
      valOfChars 10 p = valOfChars 10 q → p = q := by
  intro p
  induction p with
  | nil =>
    intro q _ _ hlen _
    exact (List.length_eq_zero.mp hlen.symm).symm
  | cons c t ih =>
    intro q hp hq hlen hval
    match q with
    | [] => simp at hlen
    | d :: u =>
      have hlen' : t.length = u.length := by
        simpa using hlen
      have hposp : 0 < (10:Nat) ^ t.length := by positivity
      have hvt : valOfChars 10 t < 10 ^ t.length :=
        valOfChars_lt (by norm_num) (fun a ha =>
          digitVal_lt_ten (hp a (List.mem_cons_of_mem _ ha)))
      have hvu : valOfChars 10 u < 10 ^ t.length := by
        rw [hlen']
        exact valOfChars_lt (by norm_num) (fun a ha =>
          digitVal_lt_ten (hq a (List.mem_cons_of_mem _ ha)))
      rw [valOfChars_cons, valOfChars_cons, ← hlen'] at hval
      have hdig : digitVal c = digitVal d := by
        have h1 : (digitVal c * 10 ^ t.length + valOfChars 10 t) / 10 ^ t.length
            = digitVal c := by
          rw [show digitVal c * 10 ^ t.length + valOfChars 10 t
            = valOfChars 10 t + 10 ^ t.length * digitVal c from by ring,
            Nat.add_mul_div_left _ _ hposp, Nat.div_eq_of_lt hvt, Nat.zero_add]
        have h2 : (digitVal d * 10 ^ t.length + valOfChars 10 u) / 10 ^ t.length
            = digitVal d := by
          rw [show digitVal d * 10 ^ t.length + valOfChars 10 u
            = valOfChars 10 u + 10 ^ t.length * digitVal d from by ring,
            Nat.add_mul_div_left _ _ hposp, Nat.div_eq_of_lt hvu, Nat.zero_add]
        rw [← h1, ← h2, hval]
      have hcd : c = d := by
        have hcr := hp c (List.mem_cons_self _ _)
        have hdr := hq d (List.mem_cons_self _ _)
        simp only [isDigitChar, Bool.and_eq_true, decide_eq_true_eq] at hcr hdr
        have : c.toNat = d.toNat := by
          unfold digitVal at hdig
          split_ifs at hdig
          all_goals omega
        exact charToNat_injective this
      have hvtu : valOfChars 10 t = valOfChars 10 u := by
        rw [hdig] at hval
        exact Nat.add_left_cancel hval
      rw [hcd, ih (fun a ha => hp a (List.mem_cons_of_mem _ ha))
        (fun a ha => hq a (List.mem_cons_of_mem _ ha)) hlen' hvtu]

/-- Zero-padding a digit string to width `m` gives the same characters as
zero-padding the canonical numeral of its value: the padding normalizes
leading zeros away. -/
theorem padStartL_digits_canonical {v : List Char} (hv : ∀ c ∈ v, isDigitChar c = true)
    {m : Nat} (hm : 1 ≤ m) (hlen : v.length ≤ m) :
    padStartL v m '0' = padStartL (natToChars10 (valOfChars 10 v)) m '0' := by
  have hvlt : valOfChars 10 v < 10 ^ m := by
    calc valOfChars 10 v < 10 ^ v.length :=
          valOfChars_lt (by norm_num) (fun a ha => digitVal_lt_ten (hv a ha))
      _ ≤ 10 ^ m := Nat.pow_le_pow_right (by norm_num) hlen
  have hclen : (natToChars10 (valOfChars 10 v)).length ≤ m :=
    natToChars10_length_le hm hvlt
  apply digit_strings_eq_of_val_eq
  · intro c hc
    rcases List.mem_append.mp hc with h | h
    · exact replicate_zero_digits _ c h
    · exact hv c h
  · intro c hc
    rcases List.mem_append.mp hc with h | h
    · exact replicate_zero_digits _ c h
    · exact natToChars10_digits _ c h
  · rw [padStartL_length, padStartL_length]
    omega
  · rw [valOfChars_padStartL, valOfChars_padStartL, valOfChars_natToChars10]

/-- On digit strings of at most 19 characters, `formatTokenAmount` at 18
decimals depends only on the denoted value: the `padStart(19, '0')` step
absorbs any leading zeros, so the result equals that on the canonical
numeral. -/
theorem formatTokenAmount_pad_transfer {v : List Char} (hv : v.all isDigitChar = true)
    (hlen : v.length ≤ 19) :
    formatTokenAmount (String.mk v) 18
      = formatTokenAmount (String.mk (natToChars10 (valOfChars 10 v))) 18 := by
  have hv' := List.all_eq_true.mp hv
  by_cases hx : valOfChars 10 v = 0
  · -- a zero value: every digit is '0' and both sides print "0"
    have hall : ∀ c ∈ v, c = '0' := all_zero_of_val_eq_zero hv' hx
    rw [hx]
    show _ = formatTokenAmount "0" 18
    have hrhs : formatTokenAmount "0" 18 = "0" := by
      simp [formatTokenAmount]
    rw [hrhs]
    match v, hall, hlen with
    | [], _, _ => decide
    | [c], hall, _ =>
      rw [hall c (List.mem_cons_self _ _)]
      decide
    | c1 :: c2 :: t, hall, hlen =>
      have hrep : c1 :: c2 :: t = List.replicate (c1 :: c2 :: t).length '0' :=
        List.eq_replicate_of_mem hall
      have hns : ¬(String.mk (c1 :: c2 :: t) = "0" ∨ String.mk (c1 :: c2 :: t) = "") := by
        rintro (h | h)
        · have := congrArg String.data h
          simp at this
        · have := congrArg String.data h
          simp at this
      unfold formatTokenAmount
      rw [if_neg hns]
      simp only [if_neg (by decide : ¬(18:Nat) = 0)]
      have hpad : padStartL (String.mk (c1 :: c2 :: t)).data 19 '0'
          = List.replicate 19 '0' := by
        show padStartL (c1 :: c2 :: t) 19 '0' = List.replicate 19 '0'
        conv_lhs => rw [hrep]
        unfold padStartL
        rw [List.length_replicate, ← List.replicate_add]
        congr 1
        omega
      rw [hpad]
      rw [show List.replicate 19 '0' = '0' :: List.replicate 18 '0' from rfl]
      rw [show ('0' :: List.replicate 18 '0').length - 18 = 1 from by simp]
      rw [show List.take 1 ('0' :: List.replicate 18 '0') = ['0'] from rfl]
      rw [show List.drop 1 ('0' :: List.replicate 18 '0') = List.replicate 18 '0' from rfl]
      rw [if_pos ((trimTrailingZeros_eq_nil_iff _).mpr
        (fun c hc => List.eq_of_mem_replicate hc))]
      rw [if_neg (by simp : ¬(['0'] : List Char) = [])]
  · -- a nonzero value: both calls take the main branch with the same padding
    have hnsv : ¬(String.mk v = "0" ∨ String.mk v = "") := by
      rintro (h | h)
      · have hd : v = ['0'] := congrArg String.data h
        rw [hd] at hx
        exact hx (by decide)
      · have hd : v = [] := congrArg String.data h
        rw [hd] at hx
        exact hx (by decide)
    have hnsc : ¬(String.mk (natToChars10 (valOfChars 10 v)) = "0"
        ∨ String.mk (natToChars10 (valOfChars 10 v)) = "") := by
      rintro (h | h)
      · have hd : natToChars10 (valOfChars 10 v) = ['0'] := congrArg String.data h
        have hval := valOfChars_natToChars10 (valOfChars 10 v)
        rw [hd, valOfChars_singleton] at hval
        exact hx (by rw [← hval]; decide)
      · exact natToChars10_ne_nil _ (congrArg String.data h)
    unfold formatTokenAmount
    rw [if_neg hnsv, if_neg hnsc]
    simp only [if_neg (by decide : ¬(18:Nat) = 0)]
    rw [@padStartL_digits_canonical v hv' (18 + 1) (by norm_num) (by omega)]

/-- C9 (amended): the two unit formatters agree at 18 decimals on every
digit string of at most 19 characters (leading zeros included — the
`padStart(19, '0')` step normalizes them), on the empty string, and on
every canonical decimal numeral (no leading zeros) of any length; they
disagree only on strings with surplus leading zeros longer than 19
characters (see the counterexample). -/
theorem formatUnits_eq_formatTokenAmount_short_or_canonical :
    formatUnits "" 18 = some (formatTokenAmount "" 18) ∧
    (∀ x : Nat, formatUnits (String.mk (natToChars10 x)) 18
        = some (formatTokenAmount (String.mk (natToChars10 x)) 18)) ∧
    (∀ v : List Char, v.all isDigitChar = true → v.length ≤ 19 →
      formatUnits (String.mk v) 18 = some (formatTokenAmount (String.mk v) 18)) := by
  refine ⟨by decide, ?_, ?_⟩
  · intro x
    rw [formatUnits_natToChars10 x (by norm_num),
      formatTokenAmount_canonical x (by norm_num)]
  · intro v hv hlen
    rw [formatUnits_digits hv (by norm_num), formatTokenAmount_pad_transfer hv hlen,
      formatTokenAmount_canonical (valOfChars 10 v) (by norm_num)]

/-- C9 (witness): the agreement conjunct for short strings applied at the
leading-zero string `"01"`. -/
theorem formatUnits_eq_formatTokenAmount_short_or_canonical_witness :
    formatUnits (String.mk ['0', '1']) 18
      = some (formatTokenAmount (String.mk ['0', '1']) 18) :=
  formatUnits_eq_formatTokenAmount_short_or_canonical.2.2 ['0', '1']
    (by decide) (by decide)

/-! ## Claim C4: bool decoding tests the last hex character -/

theorem hex_digitVal_eq_one_iff {c : Char} (h : isHexDigitChar c = true) :
    digitVal c = 1 ↔ c = '1' := by
  constructor
  · intro h1
    simp only [isHexDigitChar, isDigitChar, Bool.or_eq_true, Bool.and_eq_true,
      decide_eq_true_eq] at h
    unfold digitVal at h1
    have h49 : c.toNat = 49 := by
      split_ifs at h1 <;> omega
    exact charToNat_injective (show c.toNat = Char.toNat '1' from h49)
  · rintro rfl
    decide

/-- C4 (counterexample): on the 32-byte word `0x…03` the low-order *bit*
is 1, yet both the bool branch of `decodeResult` and `decodeBool` return
`false`, because they compare the last hex *character* against `'1'`.
The claimed low-order-bit semantics is therefore false. -/
theorem decodeResult_bool_low_bit_mismatch :
    decodeResult "0x0000000000000000000000000000000000000000000000000000000000000003"
        ["bool"] = [DecodedValue.bool false] ∧
    decodeBool "0x0000000000000000000000000000000000000000000000000000000000000003"
        = false ∧
    valOfChars 16 (replaceFirst0x
      ("0x0000000000000000000000000000000000000000000000000000000000000003").data)
        % 2 = 1 := by
  refine ⟨by decide, by decide, by decide⟩

/-- C4 (amended): for every 32-byte word of hex digits, the bool branch of
`decodeResult` and `decodeBool` return true iff the *last hex digit* of
the word is `'1'` — equivalently, iff the word's value is 1 modulo 16.
(This agrees with the claimed low-order-bit reading only when the low
nibble is 0 or 1, as in canonical ABI bool words.) -/
theorem decodeResult_bool_last_hex_digit (w : List Char) (hw : w.length = 64)
    (hx : ∀ c ∈ w, isHexDigitChar c = true) :
    decodeResult (String.mk ('0' :: 'x' :: w)) ["bool"]
      = [DecodedValue.bool (decide (valOfChars 16 w % 16 = 1))] ∧
    decodeBool (String.mk ('0' :: 'x' :: w)) = decide (valOfChars 16 w % 16 = 1) := by
  have hne : w ≠ [] := by
    intro h
    rw [h] at hw
    simp at hw
  have hlast := List.dropLast_append_getLast hne
  set c := w.getLast hne with hc
  have hcmem : c ∈ w := List.getLast_mem hne
  have hchex := hx c hcmem
  have hdroplen : w.dropLast.length = 63 := by
    rw [List.length_dropLast, hw]
  have hmod : valOfChars 16 w % 16 = digitVal c := by
    conv_lhs => rw [← hlast]
    rw [valOfChars_append, valOfChars_singleton, List.length_cons, List.length_nil,
      pow_one]
    have hlt := digitVal_lt_sixteen hchex
    omega
  have hslice : sliceL w 63 64 = [c] := by
    unfold sliceL
    have hdrop : w.drop 63 = [c] := by
      conv_lhs => rw [← hlast]
      rw [show (63:Nat) = w.dropLast.length from hdroplen.symm, List.drop_left]
    rw [hdrop]
    rfl
  have hdecide : decide ([c] = (['1'] : List Char)) = decide (valOfChars 16 w % 16 = 1) := by
    rw [hmod]
    rcases Decidable.em (digitVal c = 1) with h1 | h1
    · rw [decide_eq_true h1, decide_eq_true (List.cons_eq_cons.mpr
        ⟨(hex_digitVal_eq_one_iff hchex).mp h1, rfl⟩)]
    · rw [decide_eq_false h1, decide_eq_false (by
        intro hl
        exact h1 ((hex_digitVal_eq_one_iff hchex).mpr (List.cons_eq_cons.mp hl).1))]
  constructor
  · show decodeResultAux (replaceFirst0x ('0' :: 'x' :: w)) ["bool"] 0 = _
    rw [show replaceFirst0x ('0' :: 'x' :: w) = w from rfl]
    unfold decodeResultAux
    rw [if_neg (by decide : ¬("bool" : String) = "address"),
      if_neg (by decide : ¬(("bool" : String) = "uint256" ∨ ("bool" : String) = "uint")),
      if_pos (rfl : ("bool" : String) = "bool")]
    simp only [Nat.zero_add]
    rw [show decodeResultAux w [] 64 = [] from rfl, hslice, hdecide]
  · show ((replaceFirst0x ('0' :: 'x' :: w)).getLast? == some '1')
        = decide (valOfChars 16 w % 16 = 1)
    rw [show replaceFirst0x ('0' :: 'x' :: w) = w from rfl]
    conv_lhs => rw [← hlast, List.getLast?_concat]
    show decide (c = '1') = _
    rw [← hdecide]
    rcases Decidable.em (c = '1') with h1 | h1
    · rw [decide_eq_true h1, decide_eq_true (by rw [h1])]
    · rw [decide_eq_false h1, decide_eq_false (by
        intro hl
        exact h1 (List.cons_eq_cons.mp hl).1)]

/-- C4 (witness): the amended theorem at the canonical `true` word
`0x…01`. -/
theorem decodeResult_bool_last_hex_digit_witness :
    decodeResult "0x0000000000000000000000000000000000000000000000000000000000000001"
        ["bool"]
      = [DecodedValue.bool (decide (valOfChars 16 (List.replicate 63 '0' ++ ['1'])
          % 16 = 1))] := by
  have h := (decodeResult_bool_last_hex_digit (List.replicate 63 '0' ++ ['1'])
    (by decide) (by decide)).1
  have hstr : String.mk ('0' :: 'x' :: (List.replicate 63 '0' ++ ['1']))
      = "0x0000000000000000000000000000000000000000000000000000000000000001" := by
    decide
  rwa [hstr] at h

/-! ## Claim C5: address decoding and case normalization -/

/-- C5 (counterexample): on a word whose low 20 bytes contain upper-case
hex digits, the address branch of `decodeResult` returns them unchanged —
`0x…AB`, not the lower-cased `0x…ab` the claim requires — while
`decodeAddress` does lower-case. -/
theorem decodeResult_address_preserves_case :
    decodeResult
        "0x00000000000000000000000000000000000000000000000000000000000000AB"
        ["address"]
      ≠ [DecodedValue.str "0x00000000000000000000000000000000000000ab"] ∧
    decodeResult
        "0x00000000000000000000000000000000000000000000000000000000000000AB"
        ["address"]
      = [DecodedValue.str "0x00000000000000000000000000000000000000AB"] ∧
    decodeAddress
        "0x00000000000000000000000000000000000000000000000000000000000000AB"
      = "0x00000000000000000000000000000000000000ab" := by
  refine ⟨by decide, by decide, by decide⟩

/-- C5 (amended): for every 32-byte word of hex digits, the address branch
of `decodeResult` returns the low 20 bytes (the last 40 hex characters)
`0x`-prefixed but *without* case folding, while `decodeAddress` returns
the same low 20 bytes lower-cased; the retained characters denote exactly
the word's value modulo `16^40`, i.e. its low 20 bytes. -/
theorem decode_address_low_bytes (w : List Char) (hw : w.length = 64)
    (hx : ∀ c ∈ w, isHexDigitChar c = true) :
    decodeResult (String.mk ('0' :: 'x' :: w)) ["address"]
      = [DecodedValue.str (String.mk ('0' :: 'x' :: w.drop 24))] ∧
    decodeAddress (String.mk ('0' :: 'x' :: w))
      = String.mk ('0' :: 'x' :: ((w.drop 24).map Char.toLower)) ∧
    valOfChars 16 (w.drop 24) = valOfChars 16 w % 16 ^ 40 := by
  have hdlen : (w.drop 24).length = 40 := by
    rw [List.length_drop, hw]
  have hslice : sliceL w 24 64 = w.drop 24 := by
    unfold sliceL
    apply List.take_of_length_le
    omega
  refine ⟨?_, ?_, ?_⟩
  · show decodeResultAux (replaceFirst0x ('0' :: 'x' :: w)) ["address"] 0 = _
    rw [show replaceFirst0x ('0' :: 'x' :: w) = w from rfl]
    unfold decodeResultAux
    rw [if_pos (rfl : ("address" : String) = "address")]
    simp only [Nat.zero_add]
    rw [show decodeResultAux w [] 64 = [] from rfl, hslice]
  · show String.mk ('0' :: 'x' ::
        ((replaceFirst0x ('0' :: 'x' :: w)).drop
          ((replaceFirst0x ('0' :: 'x' :: w)).length - 40)).map Char.toLower) = _
    rw [show replaceFirst0x ('0' :: 'x' :: w) = w from rfl, hw]
  · conv_rhs => rw [← List.take_append_drop 24 w]
    rw [valOfChars_append, hdlen]
    have hlt : valOfChars 16 (w.drop 24) < 16 ^ 40 := by
      have := valOfChars_lt (b := 16) (by norm_num) (l := w.drop 24)
        (fun c hc => digitVal_lt_sixteen (hx c (List.drop_subset 24 w hc)))
      rwa [hdlen] at this
    rw [show valOfChars 16 (w.take 24) * 16 ^ 40 + valOfChars 16 (w.drop 24)
      = valOfChars 16 (w.drop 24) + 16 ^ 40 * valOfChars 16 (w.take 24) from by ring]
    rw [Nat.add_mul_mod_self_left, Nat.mod_eq_of_lt hlt]

/-- C5 (witness): the amended theorem at a lower-case word. -/
theorem decode_address_low_bytes_witness :
    decodeResult (String.mk ('0' :: 'x' ::
        (List.replicate 24 '0' ++ List.replicate 38 '0' ++ ['a', 'b']))) ["address"]
      = [DecodedValue.str (String.mk ('0' :: 'x' ::
          ((List.replicate 24 '0' ++ List.replicate 38 '0' ++ ['a', 'b']).drop 24)))] :=
  (decode_address_low_bytes
    (List.replicate 24 '0' ++ List.replicate 38 '0' ++ ['a', 'b'])
    (by decide) (by decide)).1

/-! ## Claim C3: uint256 encoding -/

theorem encodeParameters_uint256_num (v : Int) :
    encodeParameters ["uint256"] [JsValue.num v]
      = some (String.mk (padStartL (intHexChars v) 64 '0')) := by
  unfold encodeParameters encodeParametersAux
  dsimp only
  rw [if_neg (by decide : ¬("uint256" : String) = "address"),
    if_pos (Or.inl rfl : ("uint256" : String) = "uint256" ∨ ("uint256" : String) = "uint")]
  show some (String.mk (padStartL (intHexChars v) 64 '0' ++ []))
      = some (String.mk (padStartL (intHexChars v) 64 '0'))
  rw [List.append_nil]

/-- C3 (counterexample): encoding a *negative* value as `uint256` raises
no error at all — `encodeParameters` happily returns a string, namely 62
zeros followed by `-1` (the sign character of `BigInt(-1).toString(16)`
survives the zero padding).  The claimed `EncodingError` on negative or
over-256-bit values does not exist in the code. -/
theorem encodeParameters_negative_uint_no_error :
    (encodeParameters ["uint256"] [JsValue.num (-1)]).isSome = true ∧
    encodeParameters ["uint256"] [JsValue.num (-1)]
      = some "00000000000000000000000000000000000000000000000000000000000000-1" := by
  refine ⟨by decide, by decide⟩

/-- C3 (amended): for values in `[0, 2^256)` the `uint256`/`uint` branch
of `encodeParameters` produces exactly one 32-byte word — 64 hex
characters whose big-endian value is the operand (minimal hex, left-padded
with zeros); but out-of-range values raise no error: a value `≥ 2^256`
yields more than 64 characters, and a negative value yields a word
containing the sign character `'-'`. -/
theorem encodeParameters_uint256_word :
    (∀ v : Int, 0 ≤ v → v < 2 ^ 256 →
      encodeParameters ["uint256"] [JsValue.num v]
          = some (String.mk (padStartL (natHexChars v.toNat) 64 '0')) ∧
        (padStartL (natHexChars v.toNat) 64 '0').length = 64 ∧
        valOfChars 16 (padStartL (natHexChars v.toNat) 64 '0') = v.toNat) ∧
    (∀ v : Int, (2:Int) ^ 256 ≤ v →
      ∃ w : String, encodeParameters ["uint256"] [JsValue.num v] = some w ∧
        64 < w.data.length) ∧
    (∀ v : Int, v < 0 →
      ∃ w : String, encodeParameters ["uint256"] [JsValue.num v] = some w ∧
        '-' ∈ w.data) := by
  refine ⟨?_, ?_, ?_⟩
  · intro v h0 hlt
    have hhex : intHexChars v = natHexChars v.toNat := by
      unfold intHexChars
      rw [if_neg (by omega)]
    have hn : v.toNat < 16 ^ 64 := by
      have h2 : ((2:Int) ^ 256) = ((2 ^ 256 : Nat) : Int) := by norm_num
      have : v.toNat < 2 ^ 256 := by omega
      calc v.toNat < 2 ^ 256 := this
        _ = 16 ^ 64 := by norm_num
    have hlen : (natHexChars v.toNat).length ≤ 64 := natHexChars_length_le (by norm_num) hn
    refine ⟨by rw [encodeParameters_uint256_num, hhex], ?_, ?_⟩
    · rw [padStartL_length]
      omega
    · rw [valOfChars_padStartL, valOfChars_natHexChars]
  · intro v hge
    refine ⟨String.mk (padStartL (intHexChars v) 64 '0'),
      encodeParameters_uint256_num v, ?_⟩
    have h0 : 0 ≤ v := le_trans (by positivity) hge
    have hhex : intHexChars v = natHexChars v.toNat := by
      unfold intHexChars
      rw [if_neg (by omega)]
    have hn : 16 ^ 64 ≤ v.toNat := by
      have : (2:Int) ^ 256 = ((16 ^ 64 : Nat) : Int) := by norm_num
      omega
    have hlen := natHexChars_length_ge hn
    show (padStartL (intHexChars v) 64 '0').length > 64
    rw [hhex, padStartL_length]
    omega
  · intro v hneg
    refine ⟨String.mk (padStartL (intHexChars v) 64 '0'),
      encodeParameters_uint256_num v, ?_⟩
    show '-' ∈ padStartL (intHexChars v) 64 '0'
    have hhex : intHexChars v = '-' :: natHexChars v.natAbs := by
      unfold intHexChars
      rw [if_pos hneg]
    unfold padStartL
    rw [hhex]
    exact List.mem_append.mpr (Or.inr (List.mem_cons_self _ _))

/-- C3 (witness): the amended theorem at the in-range value 255, at
`2^256` itself, and at `-3`. -/
theorem encodeParameters_uint256_word_witness :
    encodeParameters ["uint256"] [JsValue.num 255]
        = some (String.mk (padStartL (natHexChars (255 : Int).toNat) 64 '0')) ∧
    (∃ w : String, encodeParameters ["uint256"] [JsValue.num (2 ^ 256)] = some w ∧
      64 < w.data.length) ∧
    (∃ w : String, encodeParameters ["uint256"] [JsValue.num (-3)] = some w ∧
      '-' ∈ w.data) :=
  ⟨(encodeParameters_uint256_word.1 255 (by norm_num) (by norm_num)).1,
   encodeParameters_uint256_word.2.1 (2 ^ 256) (le_refl _),
   encodeParameters_uint256_word.2.2 (-3) (by norm_num)⟩

end Celo
